import Mathlib

/-!
Verification of the wide-column store demo (`src/main.py`) and of the minimal
embeddable wide-column store engine it exercises.  The demo's own functions
(`_write_words`, `_print_row`, the flow of `main`) are embedded from the
source.  The store engine itself lives in the external client library, so its
operations are modelled from the specification; every such definition carries a
doc comment starting with `Modelled from the spec:`.
-/

namespace Bigtable

/-- Byte sequences (row keys, column qualifiers, cell payloads): lists of byte
values, compared lexicographically like Python `bytes`. -/
abbrev Bytes := List Nat

/-- Models Python `str.encode()` on the ASCII strings the demo uses: the UTF-8
bytes of an ASCII string are exactly its character code points. -/
def encode (s : String) : Bytes := s.data.map Char.toNat

/-- A cell value: a tagged variant, bytes or integer (design note of the spec:
model cell values as a tagged variant with Bytes and Integer). -/
inductive Value where
  | bytes (b : Bytes)
  | int (n : Int)
deriving DecidableEq

/-- Coordinate of one cell version: (row key, column family, column qualifier,
timestamp). -/
structure CellKey where
  row : Bytes
  family : String
  qual : Bytes
  ts : Nat
deriving DecidableEq

/-- Modelled from the spec: the Cell Store maps
(row key, column family, column, timestamp) to a value, with multi-version
retention.  The client library holds the real implementation, so the store is
modelled as the list of its cells. -/
abbrev CellStore := List (CellKey × Value)

/-- Modelled from the spec: `put(rowKey, family, qualifier, timestamp, value)`
inserts or overwrites a version; inserting a duplicate timestamp overwrites
that version's value. -/
def put (s : CellStore) (k : CellKey) (v : Value) : CellStore :=
  if s.any (fun c => decide (c.1 = k)) then
    s.map (fun c => if c.1 = k then (k, v) else c)
  else
    s ++ [(k, v)]

/-- The cells of the store at one (row, family, qualifier) coordinate, as
(timestamp, value) pairs, in store order. -/
def groupCells (s : CellStore) (r : Bytes) (f : String) (q : Bytes) :
    List (Nat × Value) :=
  (s.filter (fun c => decide (c.1.row = r ∧ c.1.family = f ∧ c.1.qual = q))).map
    (fun c => (c.1.ts, c.2))

/-- Newest-first ordering on versions: timestamp descending. -/
def tsDesc (a b : Nat × Value) : Prop := b.1 ≤ a.1

instance : DecidableRel tsDesc := fun a b => Nat.decLe b.1 a.1

instance : IsTotal (Nat × Value) tsDesc := ⟨fun a b => Nat.le_total b.1 a.1⟩

instance : IsTrans (Nat × Value) tsDesc := ⟨fun _ _ _ h1 h2 => Nat.le_trans h2 h1⟩

def sortTsDesc (l : List (Nat × Value)) : List (Nat × Value) :=
  l.insertionSort tsDesc

/-- Modelled from the spec: `get(rowKey, family, qualifier)` returns the
sequence of (timestamp, value) pairs at that coordinate ordered newest-first. -/
def getVersions (s : CellStore) (r : Bytes) (f : String) (q : Bytes) :
    List (Nat × Value) :=
  sortTsDesc (groupCells s r f q)

/-- Whether the store holds any cell of the given row key. -/
def rowExists (s : CellStore) (r : Bytes) : Bool :=
  s.any (fun c => decide (c.1.row = r))

/-- One cell write of a row mutation (a `row.set_cell` call of the demo). -/
structure CellWrite where
  family : String
  qual : Bytes
  ts : Nat
  value : Value
deriving DecidableEq

/-- One pending row mutation: a row key plus its cell writes (the demo's
`table.direct_row(row_key)` followed by `row.set_cell` calls). -/
structure RowMutation where
  key : Bytes
  cells : List CellWrite
deriving DecidableEq

/-- Modelled from the spec: applying one row mutation writes each of its cells
into the Cell Store. -/
def applyRowMutation (s : CellStore) (m : RowMutation) : CellStore :=
  m.cells.foldl (fun s w => put s ⟨m.key, w.family, w.qual, w.ts⟩ w.value) s

/-- Modelled from the spec: `table.mutate_rows(rows)` applies each row
mutation of the chunk to the Cell Store, in order. -/
def mutateRows (s : CellStore) (rows : List RowMutation) : CellStore :=
  rows.foldl applyRowMutation s

/-- Applying a sequence of flushed chunks to the Cell Store, in call order. -/
def applyChunks (s : CellStore) (chunks : List (List RowMutation)) : CellStore :=
  chunks.foldl mutateRows s

/-- From src/main.py line 38. -/
def MUTATION_BATCHSIZE : Nat := 500

/-- From src/main.py lines 48-49: the string of characters of `word` that agree
position-wise with `prev` (the zip comprehension joined back together). -/
def sharedRoot (word prev : String) : String :=
  String.mk ((word.data.zip prev.data).filterMap
    (fun p => if p.1 = p.2 then some p.1 else none))

/-- The row mutation `_write_words` builds for one word
(src/main.py lines 46-58): row key is the encoded word, with two cell writes,
`att_letters` (decimal length of the word) and `att_shared_root_with_prev`.
`clk` models `datetime.utcnow()` as an increasing counter. -/
def wordRow (cf : String) (word prev : String) (clk : Nat) : RowMutation :=
  { key := encode word
    cells := [⟨cf, encode "att_letters", clk, .bytes (encode (toString word.length))⟩,
              ⟨cf, encode "att_shared_root_with_prev", clk,
                .bytes (encode (sharedRoot word prev))⟩] }

/-- The loop of `_write_words` (src/main.py lines 42-67), returning the list of
chunks passed to `table.mutate_rows`, in call order: a word's row mutation is
appended to the pending list, the pending list is flushed as soon as its length
reaches the batch size `B`, and a non-empty remainder is flushed at the end. -/
def writeWordsLoop (cf : String) (B : Nat) :
    List String → List RowMutation → String → Nat → List (List RowMutation)
  | [], rows, _, _ => if rows.length > 0 then [rows] else []
  | w :: ws, rows, prev, clk =>
      let rows' := rows ++ [wordRow cf w prev clk]
      if rows'.length ≥ B then rows' :: writeWordsLoop cf B ws [] w (clk + 1)
      else writeWordsLoop cf B ws rows' w (clk + 1)

/-- The chunks `_write_words` submits for a list of words, starting (as the
source does) from an empty pending list, empty previous word and clock 0. -/
def writeWordsChunks (cf : String) (B : Nat) (words : List String) :
    List (List RowMutation) :=
  writeWordsLoop cf B words [] "" 0

/-- `_write_words` as a whole: the chunks it submits, paired with its Python
return value.  The body of `_write_words` contains no `return` statement, so
the function returns `None`. -/
def writeWords (cf : String) (B : Nat) (words : List String) :
    List (List RowMutation) × Option Nat :=
  (writeWordsChunks cf B words, none)

/-- The row mutations of the words in input order, one per word, threading the
previous word and the clock exactly as the loop does. -/
def wordRowsSeq (cf : String) : List String → String → Nat → List RowMutation
  | [], _, _ => []
  | w :: ws, prev, clk => wordRow cf w prev clk :: wordRowsSeq cf ws w (clk + 1)

/-- The five-word input used for the concrete batching scenario. -/
def wordsDemo : List String := ["apple", "apply", "banana", "cherry", "date"]

theorem wordRowsSeq_length (cf : String) :
    ∀ (ws : List String) (prev : String) (clk : Nat),
      (wordRowsSeq cf ws prev clk).length = ws.length
  | [], _, _ => rfl
  | _ :: ws, _, clk => by
      simp [wordRowsSeq, wordRowsSeq_length cf ws _ (clk + 1)]

theorem writeWordsLoop_join (cf : String) (B : Nat) :
    ∀ (ws : List String) (rows : List RowMutation) (prev : String) (clk : Nat),
      (writeWordsLoop cf B ws rows prev clk).flatten = rows ++ wordRowsSeq cf ws prev clk
  | [], rows, prev, clk => by
      by_cases h : rows.length > 0
      · simp [writeWordsLoop, h, wordRowsSeq]
      · have : rows = [] := List.length_eq_zero.mp (Nat.eq_zero_of_not_pos h)
        simp [writeWordsLoop, h, wordRowsSeq, this]
  | w :: ws, rows, prev, clk => by
      by_cases h : (rows ++ [wordRow cf w prev clk]).length ≥ B
      · simp only [writeWordsLoop, h, if_pos, List.flatten]
        rw [writeWordsLoop_join cf B ws [] w (clk + 1)]
        simp [wordRowsSeq]
      · simp only [writeWordsLoop, h, if_neg, not_false_iff]
        rw [writeWordsLoop_join cf B ws _ w (clk + 1)]
        simp [wordRowsSeq]

theorem writeWordsLoop_sizes (cf : String) (B : Nat) :
    ∀ (ws : List String) (rows : List RowMutation) (prev : String) (clk : Nat),
      rows.length < B →
      ∀ c ∈ writeWordsLoop cf B ws rows prev clk, 0 < c.length ∧ c.length ≤ B
  | [], rows, prev, clk => by
      intro hlt c hc
      by_cases h : rows.length > 0
      · simp only [writeWordsLoop, h, if_pos, List.mem_singleton] at hc
        exact hc ▸ ⟨h, Nat.le_of_lt hlt⟩
      · simp [writeWordsLoop, h] at hc
  | w :: ws, rows, prev, clk => by
      intro hlt c hc
      by_cases h : (rows ++ [wordRow cf w prev clk]).length ≥ B
      · simp only [writeWordsLoop, h, if_pos, List.mem_cons] at hc
        have hlen : (rows ++ [wordRow cf w prev clk]).length = B := by
          have : (rows ++ [wordRow cf w prev clk]).length = rows.length + 1 := by simp
          omega
        rcases hc with rfl | hc
        · exact ⟨by omega, Nat.le_of_eq hlen⟩
        · exact writeWordsLoop_sizes cf B ws [] w (clk + 1)
            (by simp only [List.length_nil]; omega) c hc
      · simp only [writeWordsLoop, h, if_neg, not_false_iff] at hc
        have hlt' : (rows ++ [wordRow cf w prev clk]).length < B := Nat.lt_of_not_le h
        exact writeWordsLoop_sizes cf B ws _ w (clk + 1) hlt' c hc

theorem writeWordsLoop_dropLast_sizes (cf : String) (B : Nat) :
    ∀ (ws : List String) (rows : List RowMutation) (prev : String) (clk : Nat),
      rows.length < B →
      ∀ c ∈ (writeWordsLoop cf B ws rows prev clk).dropLast, c.length = B
  | [], rows, prev, clk => by
      intro _ c hc
      by_cases h : rows.length > 0 <;> simp [writeWordsLoop, h, List.dropLast] at hc
  | w :: ws, rows, prev, clk => by
      intro hlt c hc
      by_cases h : (rows ++ [wordRow cf w prev clk]).length ≥ B
      · simp only [writeWordsLoop, h, if_pos] at hc
        have hlen : (rows ++ [wordRow cf w prev clk]).length = B := by
          have : (rows ++ [wordRow cf w prev clk]).length = rows.length + 1 := by simp
          omega
        cases hr : writeWordsLoop cf B ws [] w (clk + 1) with
        | nil => rw [hr] at hc; simp [List.dropLast] at hc
        | cons a l =>
            rw [hr] at hc
            simp only [List.dropLast, List.mem_cons] at hc
            rcases hc with rfl | hc
            · exact hlen
            · have := writeWordsLoop_dropLast_sizes cf B ws [] w (clk + 1)
                (by simp only [List.length_nil]; omega)
              rw [hr] at this
              exact this c (by simpa [List.dropLast] using hc)
      · simp only [writeWordsLoop, h, if_neg, not_false_iff] at hc
        exact writeWordsLoop_dropLast_sizes cf B ws _ w (clk + 1) (Nat.lt_of_not_le h) c hc

/-- C1: for every input word list and every positive batch size B,
`_write_words` submits each word's row mutation to the store exactly once, in
input order (the concatenation of the flushed chunks is the per-word mutation
sequence), partitioned into chunks each of size at most B, flushing a chunk as
soon as B pending mutations accumulate (every chunk except possibly the last
has size exactly B) and flushing the non-empty remainder at the end (all
chunks are non-empty); in particular, with B = 2 and the five-word input the
loop produces exactly 3 chunks of sizes (2, 2, 1), and all 5 rows are present
in the store afterwards. -/
theorem write_words_batching (cf : String) (B : Nat) (hB : 0 < B)
    (words : List String) :
    ((writeWordsChunks cf B words).flatten = wordRowsSeq cf words "" 0
      ∧ (∀ c ∈ writeWordsChunks cf B words, 0 < c.length ∧ c.length ≤ B)
      ∧ (∀ c ∈ (writeWordsChunks cf B words).dropLast, c.length = B))
    ∧ ((writeWordsChunks "word_attributes" 2 wordsDemo).map List.length = [2, 2, 1]
      ∧ ∀ w ∈ wordsDemo,
          rowExists (applyChunks [] (writeWordsChunks "word_attributes" 2 wordsDemo))
            (encode w) = true) := by
  refine ⟨⟨by simpa using writeWordsLoop_join cf B words [] "" 0, ?_, ?_⟩,
    by decide, by decide⟩
  · exact writeWordsLoop_sizes cf B words [] "" 0 (by simpa using hB)
  · exact writeWordsLoop_dropLast_sizes cf B words [] "" 0 (by simpa using hB)

theorem write_words_batching_witness :
    0 < 2
    ∧ (((writeWordsChunks "word_attributes" 2 wordsDemo).flatten
          = wordRowsSeq "word_attributes" wordsDemo "" 0
        ∧ (∀ c ∈ writeWordsChunks "word_attributes" 2 wordsDemo,
            0 < c.length ∧ c.length ≤ 2)
        ∧ (∀ c ∈ (writeWordsChunks "word_attributes" 2 wordsDemo).dropLast,
            c.length = 2))
      ∧ ((writeWordsChunks "word_attributes" 2 wordsDemo).map List.length = [2, 2, 1]
        ∧ ∀ w ∈ wordsDemo,
            rowExists (applyChunks [] (writeWordsChunks "word_attributes" 2 wordsDemo))
              (encode w) = true)) :=
  ⟨by decide, write_words_batching "word_attributes" 2 (by decide) wordsDemo⟩

/-- C2 counterexample: the word-writing operation `_write_words` does not
return the count of words written.  On the three-word input it submits 3 row
mutations, but its Python return value is `None` (the body has no return
statement), not 3. -/
theorem write_words_ret_cex :
    (writeWords "word_attributes" MUTATION_BATCHSIZE ["ant", "bee", "cat"]).2 ≠ some 3
    ∧ (writeWords "word_attributes" MUTATION_BATCHSIZE ["ant", "bee", "cat"]).1.flatten.length
        = 3 :=
  ⟨by decide, by decide⟩

/-- C2 (amended): for every input sequence of words, `_write_words` returns
`None` rather than a count, and the number of row mutations it submits to the
table equals the number of input words. -/
theorem write_words_count_amended (cf : String) (B : Nat) (words : List String) :
    (writeWords cf B words).2 = none
    ∧ (writeWords cf B words).1.flatten.length = words.length := by
  refine ⟨rfl, ?_⟩
  show (writeWordsChunks cf B words).flatten.length = words.length
  rw [writeWordsChunks, writeWordsLoop_join]
  simp [wordRowsSeq_length]

/-- Modelled from the spec: the row keys present in the store, each listed
once (a row is the set of all cells sharing that key). -/
def rowKeys (s : CellStore) : List Bytes :=
  (s.map (fun c => c.1.row)).dedup

/-- Modelled from the spec: `scan(startKey inclusive, endKey exclusive)`
returns the rows ordered by key, keys comparing as raw byte sequences
(lexicographic); the scan is modelled as the ordered list of row keys it
yields. -/
def scan (s : CellStore) (start stop : Bytes) : List Bytes :=
  (List.insertionSort (· ≤ ·) (rowKeys s)).filter
    (fun k => decide (start ≤ k) && decide (k < stop))

theorem mem_scan (s : CellStore) (start stop k : Bytes) :
    k ∈ scan s start stop ↔ k ∈ rowKeys s ∧ start ≤ k ∧ k < stop := by
  rw [scan, List.mem_filter, List.mem_insertionSort]
  simp [and_assoc]

theorem scan_pairwise (s : CellStore) (start stop : Bytes) :
    (scan s start stop).Pairwise (· < ·) := by
  have h1 : (rowKeys s).Nodup := List.nodup_dedup _
  have h2 :=
    List.sorted_insertionSort (α := Bytes) (· ≤ ·) (rowKeys s)
  have h3 : (List.insertionSort (α := Bytes) (· ≤ ·) (rowKeys s)).Nodup :=
    (List.perm_insertionSort (α := Bytes) (· ≤ ·) (rowKeys s)).symm.nodup h1
  have h4 : (List.insertionSort (α := Bytes) (· ≤ ·) (rowKeys s)).Pairwise (· < ·) :=
    (List.Pairwise.and h2 h3).imp (fun hab => lt_of_le_of_ne hab.1 hab.2)
  exact List.Pairwise.sublist (List.filter_sublist _) h4

/-- A four-row store keyed a, b, c, d for the concrete range-scan scenario. -/
def abcdStore : CellStore :=
  put (put (put (put []
    ⟨encode "a", "word_attributes", encode "q", 1⟩ (.bytes (encode "va")))
    ⟨encode "b", "word_attributes", encode "q", 1⟩ (.bytes (encode "vb")))
    ⟨encode "c", "word_attributes", encode "q", 1⟩ (.bytes (encode "vc")))
    ⟨encode "d", "word_attributes", encode "q", 1⟩ (.bytes (encode "vd"))

/-- C4: for every table state and every pair of keys, the range scan returns
exactly the row keys k with startKey <= k < endKey under lexicographic
byte-sequence comparison (start inclusive, end exclusive), in strictly
ascending key order; when startKey equals endKey it yields the empty sequence
(and never an error: `scan` is a total function); over rows keyed a, b, c, d a
scan from "a" to "c" returns exactly a, b; and a scan from "inte" to
"internet" never yields the row keyed "internet". -/
theorem scan_range (s : CellStore) (start stop : Bytes) :
    (∀ k, k ∈ scan s start stop ↔ k ∈ rowKeys s ∧ start ≤ k ∧ k < stop)
    ∧ (scan s start stop).Pairwise (· < ·)
    ∧ scan s start start = []
    ∧ scan abcdStore (encode "a") (encode "c") = [encode "a", encode "b"]
    ∧ encode "internet" ∉ scan s (encode "inte") (encode "internet") := by
  refine ⟨mem_scan s start stop, scan_pairwise s start stop, ?_, by decide, ?_⟩
  · rw [List.eq_nil_iff_forall_not_mem]
    intro k hk
    rcases (mem_scan s start start k).mp hk with ⟨_, h1, h2⟩
    exact absurd (lt_of_le_of_lt h1 h2) (lt_irrefl _)
  · intro hmem
    exact absurd ((mem_scan s _ _ _).mp hmem).2.2 (lt_irrefl _)

theorem mem_getVersions {s : CellStore} {r : Bytes} {f : String} {q : Bytes}
    {x : Nat × Value} : x ∈ getVersions s r f q ↔ x ∈ groupCells s r f q := by
  rw [getVersions, sortTsDesc]
  exact (List.perm_insertionSort tsDesc _).mem_iff

theorem length_getVersions (s : CellStore) (r : Bytes) (f : String) (q : Bytes) :
    (getVersions s r f q).length = (groupCells s r f q).length := by
  rw [getVersions, sortTsDesc]
  exact (List.perm_insertionSort tsDesc _).length_eq

theorem mem_groupCells {s : CellStore} {r : Bytes} {f : String} {q : Bytes}
    {x : Nat × Value} :
    x ∈ groupCells s r f q
      ↔ ∃ c, c ∈ s ∧ (c.1.row = r ∧ c.1.family = f ∧ c.1.qual = q)
          ∧ (c.1.ts, c.2) = x := by
  simp only [groupCells, List.mem_map, List.mem_filter, decide_eq_true_eq]
  constructor
  · rintro ⟨c, ⟨hc, hco⟩, hx⟩
    exact ⟨c, hc, hco, hx⟩
  · rintro ⟨c, hc, hco, hx⟩
    exact ⟨c, ⟨hc, hco⟩, hx⟩

theorem cellKey_eq_of_coords {c : CellKey} {k : CellKey}
    (h : c.row = k.row ∧ c.family = k.family ∧ c.qual = k.qual)
    (ht : c.ts = k.ts) : c = k := by
  cases c; cases k; simp_all

/-- C8: for every cell write `put(rowKey, family, qualifier, timestamp,
value)`, a `get` on that coordinate performed immediately afterwards returns
`value` at that timestamp (it contains the written pair, and every version at
that timestamp carries the written value); and when a cell at the same
(rowKey, family, qualifier, timestamp) already exists, the put overwrites that
version's value and the number of versions at that coordinate does not grow
(last write wins per timestamp). -/
theorem put_get (s : CellStore) (k : CellKey) (v : Value) :
    ((k.ts, v) ∈ getVersions (put s k v) k.row k.family k.qual
      ∧ ∀ w : Value, (k.ts, w) ∈ getVersions (put s k v) k.row k.family k.qual → w = v)
    ∧ (s.any (fun c => decide (c.1 = k)) = true →
        (getVersions (put s k v) k.row k.family k.qual).length
          = (getVersions s k.row k.family k.qual).length) := by
  by_cases hmem : s.any (fun c => decide (c.1 = k)) = true
  · have hput : put s k v = s.map (fun c => if c.1 = k then (k, v) else c) := by
      rw [put, if_pos hmem]
    obtain ⟨c₀, hc₀s, hc₀k⟩ : ∃ c₀ ∈ s, c₀.1 = k := by
      simpa [List.any_eq_true, decide_eq_true_eq] using hmem
    refine ⟨⟨?_, ?_⟩, ?_⟩
    · rw [mem_getVersions, mem_groupCells, hput]
      exact ⟨(k, v), List.mem_map.mpr ⟨c₀, hc₀s, by simp [hc₀k]⟩, by simp, rfl⟩
    · intro w hw
      rw [mem_getVersions, mem_groupCells, hput] at hw
      obtain ⟨c, hcmem, hco, hcx⟩ := hw
      obtain ⟨c', hc's, hc'eq⟩ := List.mem_map.mp hcmem
      by_cases h' : c'.1 = k
      · rw [if_pos h'] at hc'eq
        subst hc'eq
        exact (Prod.ext_iff.mp hcx).2.symm
      · rw [if_neg h'] at hc'eq
        subst hc'eq
        exact absurd (cellKey_eq_of_coords hco (Prod.ext_iff.mp hcx).1) h'
    · intro _
      rw [length_getVersions, length_getVersions, hput, groupCells, groupCells,
        List.length_map, List.length_map, ← List.countP_eq_length_filter,
        ← List.countP_eq_length_filter, List.countP_map]
      refine List.countP_congr ?_
      intro c hc
      by_cases h' : c.1 = k
      · simp [Function.comp, h']
      · simp [Function.comp, h']
  · have hput : put s k v = s ++ [(k, v)] := by
      rw [put, if_neg hmem]
    refine ⟨⟨?_, ?_⟩, fun h => absurd h hmem⟩
    · rw [mem_getVersions, mem_groupCells, hput]
      exact ⟨(k, v), List.mem_append_right _ (List.mem_singleton.mpr rfl), by simp, rfl⟩
    · intro w hw
      rw [mem_getVersions, mem_groupCells, hput] at hw
      obtain ⟨c, hcmem, hco, hcx⟩ := hw
      rcases List.mem_append.mp hcmem with hcs | hclast
      · exact absurd (List.any_eq_true.mpr ⟨c, hcs, by
          simp [cellKey_eq_of_coords hco (Prod.ext_iff.mp hcx).1]⟩) hmem
      · rw [List.mem_singleton.mp hclast] at hcx
        exact (Prod.ext_iff.mp hcx).2.symm

/-- A one-cell store and a key that overwrites it, for the put/get witness. -/
def demoKey : CellKey := ⟨encode "row", "F", encode "q", 5⟩

def demoStore : CellStore := [(demoKey, Value.bytes (encode "old"))]

theorem put_get_witness :
    (demoStore.any (fun c => decide (c.1 = demoKey)) = true)
    ∧ (getVersions (put demoStore demoKey (Value.bytes (encode "new")))
          demoKey.row demoKey.family demoKey.qual).length
        = (getVersions demoStore demoKey.row demoKey.family demoKey.qual).length :=
  ⟨by decide, (put_get demoStore demoKey (Value.bytes (encode "new"))).2 (by decide)⟩

/-- Strict newest-first ordering on versions: timestamp strictly descending. -/
def tsGt (a b : Nat × Value) : Prop := b.1 < a.1

instance : DecidableRel tsGt := fun a b => Nat.decLt b.1 a.1

instance : IsAntisymm (Nat × Value) tsGt :=
  ⟨fun _ _ h1 h2 => absurd (Nat.lt_trans h1 h2) (Nat.lt_irrefl _)⟩

theorem sortTsDesc_sorted (l : List (Nat × Value)) :
    List.Sorted tsDesc (sortTsDesc l) :=
  List.sorted_insertionSort tsDesc l

theorem sortTsDesc_perm (l : List (Nat × Value)) : (sortTsDesc l).Perm l :=
  List.perm_insertionSort tsDesc l

theorem sortTsDesc_sorted_strict {l : List (Nat × Value)}
    (hnd : (l.map Prod.fst).Nodup) : List.Sorted tsGt (sortTsDesc l) := by
  have hs := sortTsDesc_sorted l
  have hnd' : ((sortTsDesc l).map Prod.fst).Nodup :=
    ((sortTsDesc_perm l).map Prod.fst).nodup_iff.mpr hnd
  have hne : (sortTsDesc l).Pairwise (fun a b => a.1 ≠ b.1) :=
    List.pairwise_map.mp hnd'
  exact (List.Pairwise.and hs hne).imp
    (fun hab => Nat.lt_of_le_of_ne hab.1 (fun e => hab.2 e.symm))

theorem sortTsDesc_filter {l : List (Nat × Value)} (p : Nat × Value → Bool)
    (hnd : (l.map Prod.fst).Nodup) :
    sortTsDesc (l.filter p) = (sortTsDesc l).filter p := by
  have hndf : ((l.filter p).map Prod.fst).Nodup :=
    List.Nodup.sublist ((List.filter_sublist l).map Prod.fst) hnd
  have h1 : List.Sorted tsGt (sortTsDesc (l.filter p)) := sortTsDesc_sorted_strict hndf
  have h2 : List.Sorted tsGt ((sortTsDesc l).filter p) :=
    List.Pairwise.sublist (List.filter_sublist _) (sortTsDesc_sorted_strict hnd)
  have hperm : (sortTsDesc (l.filter p)).Perm ((sortTsDesc l).filter p) :=
    (sortTsDesc_perm (l.filter p)).trans (List.Perm.filter p (sortTsDesc_perm l).symm)
  exact List.eq_of_perm_of_sorted hperm h1 h2

theorem filter_mem_take_of_sorted {L : List (Nat × Value)} (N : Nat)
    (hs : List.Sorted tsGt L) :
    L.filter (fun x => decide (x.1 ∈ (L.take N).map Prod.fst)) = L.take N := by
  have hpair : ∀ a ∈ L.take N, ∀ b ∈ L.drop N, tsGt a b := by
    have h := hs
    rw [← List.take_append_drop N L] at h
    exact (List.pairwise_append.mp h).2.2
  set p := fun x : Nat × Value => decide (x.1 ∈ (L.take N).map Prod.fst) with hp
  have h1 : (L.take N).filter p = L.take N := by
    rw [List.filter_eq_self]
    intro x hx
    simp only [hp, decide_eq_true_eq]
    exact List.mem_map_of_mem Prod.fst hx
  have h2 : (L.drop N).filter p = [] := by
    rw [List.filter_eq_nil_iff]
    intro x hx
    simp only [hp, decide_eq_true_eq, List.mem_map, not_exists, not_and]
    intro y hy heq
    have hlt : x.1 < y.1 := hpair y hy x hx
    rw [heq] at hlt
    exact absurd hlt (Nat.lt_irrefl _)
  conv_lhs => rw [← List.take_append_drop N L]
  rw [List.filter_append, h1, h2, List.append_nil]

/-- Modelled from the spec: the GC rules of a table, one per column family;
`some N` stands for `MaxVersions(N)` and `none` for a family with no rule. -/
abbrev GCRules := String → Option Nat

/-- Modelled from the spec: applying GC removes versions violating the rule;
`MaxVersions(N)` retains only the N most recent timestamps per qualifier,
discarding older ones irreversibly. -/
def applyGC (rules : GCRules) (s : CellStore) : CellStore :=
  s.filter (fun c =>
    match rules c.1.family with
    | none => true
    | some N =>
        decide (c.1.ts ∈ ((getVersions s c.1.row c.1.family c.1.qual).take N).map Prod.fst))

theorem groupCells_applyGC (rules : GCRules) (s : CellStore) (r : Bytes)
    (f : String) (q : Bytes) (N : Nat) (hr : rules f = some N) :
    groupCells (applyGC rules s) r f q
      = (groupCells s r f q).filter
          (fun x => decide (x.1 ∈ ((getVersions s r f q).take N).map Prod.fst)) := by
  rw [groupCells, groupCells, applyGC, List.filter_filter, List.filter_map,
    List.filter_filter]
  congr 1
  refine List.filter_congr ?_
  intro c _
  by_cases hgrp : c.1.row = r ∧ c.1.family = f ∧ c.1.qual = q
  · obtain ⟨h1, h2, h3⟩ := hgrp
    simp [Function.comp, h1, h2, h3, hr, Bool.and_comm]
  · simp [hgrp, Function.comp]

theorem gv_applyGC (rules : GCRules) (s : CellStore) (r : Bytes) (f : String)
    (q : Bytes) (N : Nat) (hr : rules f = some N)
    (hnd : ((groupCells s r f q).map Prod.fst).Nodup) :
    getVersions (applyGC rules s) r f q = (getVersions s r f q).take N := by
  rw [getVersions, groupCells_applyGC rules s r f q N hr, sortTsDesc_filter _ hnd]
  exact filter_mem_take_of_sorted N (sortTsDesc_sorted_strict hnd)

/-- The GC rules of the concrete scenario: family F carries MaxVersions(2). -/
def gcDemoRules : GCRules := fun f => if f = "F" then some 2 else none

/-- The concrete GC scenario store: one row, family F, qualifier q written at
timestamps 1, 2, 3 with values a, b, c. -/
def gcDemoStore : CellStore :=
  put (put (put []
    ⟨encode "myrow", "F", encode "q", 1⟩ (.bytes (encode "a")))
    ⟨encode "myrow", "F", encode "q", 2⟩ (.bytes (encode "b")))
    ⟨encode "myrow", "F", encode "q", 3⟩ (.bytes (encode "c"))

/-- C6: after applying MaxVersions(N) GC to a (family, qualifier) holding more
than N versions with distinct timestamps, exactly the N most recent versions
by timestamp remain (the read returns the length-N newest-first head of the
previous version list, and every surviving version is more recent than every
discarded one); in the concrete scenario (family F under MaxVersions(2),
qualifier q written at timestamps 1, 2, 3 with values a, b, c, then GC),
`get(row, F, q)` returns exactly [(3, c), (2, b)]. -/
theorem max_versions_gc (rules : GCRules) (s : CellStore) (r : Bytes)
    (f : String) (q : Bytes) (N : Nat) (hr : rules f = some N)
    (hnd : ((groupCells s r f q).map Prod.fst).Nodup)
    (hlen : N < (getVersions s r f q).length) :
    getVersions (applyGC rules s) r f q = (getVersions s r f q).take N
    ∧ (getVersions (applyGC rules s) r f q).length = N
    ∧ (∀ x ∈ getVersions (applyGC rules s) r f q,
        ∀ y ∈ getVersions s r f q,
          y ∉ getVersions (applyGC rules s) r f q → y.1 < x.1)
    ∧ getVersions (applyGC gcDemoRules gcDemoStore) (encode "myrow") "F" (encode "q")
        = [(3, Value.bytes (encode "c")), (2, Value.bytes (encode "b"))] := by
  have hgv := gv_applyGC rules s r f q N hr hnd
  refine ⟨hgv, ?_, ?_, by decide⟩
  · rw [hgv, List.length_take]
    exact min_eq_left (Nat.le_of_lt hlen)
  · intro x hx y hy hyn
    rw [hgv] at hx hyn
    have hyd : y ∈ (getVersions s r f q).drop N := by
      have := (List.take_append_drop N (getVersions s r f q)) ▸ hy
      exact (List.mem_append.mp this).resolve_left hyn
    have hpair : ∀ a ∈ (getVersions s r f q).take N,
        ∀ b ∈ (getVersions s r f q).drop N, tsGt a b := by
      have h := sortTsDesc_sorted_strict (l := groupCells s r f q) hnd
      rw [show sortTsDesc (groupCells s r f q) = getVersions s r f q from rfl] at h
      rw [← List.take_append_drop N (getVersions s r f q)] at h
      exact (List.pairwise_append.mp h).2.2
    exact hpair x hx y hyd

theorem max_versions_gc_witness :
    gcDemoRules "F" = some 2
    ∧ ((groupCells gcDemoStore (encode "myrow") "F" (encode "q")).map Prod.fst).Nodup
    ∧ 2 < (getVersions gcDemoStore (encode "myrow") "F" (encode "q")).length
    ∧ getVersions (applyGC gcDemoRules gcDemoStore) (encode "myrow") "F" (encode "q")
        = (getVersions gcDemoStore (encode "myrow") "F" (encode "q")).take 2 :=
  ⟨by decide, by decide, by decide,
    (max_versions_gc gcDemoRules gcDemoStore (encode "myrow") "F" (encode "q") 2
      (by decide) (by decide) (by decide)).1⟩

/-- The column families present in a row, in first-appearance order. -/
def rowFamilies (s : CellStore) (r : Bytes) : List String :=
  ((s.filter (fun c => decide (c.1.row = r))).map (fun c => c.1.family)).dedup

/-- The column qualifiers present in a row under one family, in
first-appearance order. -/
def rowColumns (s : CellStore) (r : Bytes) (f : String) : List Bytes :=
  ((s.filter (fun c => decide (c.1.row = r ∧ c.1.family = f))).map
    (fun c => c.1.qual)).dedup

/-- A row as returned to the demo: `row.cells` maps each family to its
columns and each column to its versions, newest first (possibly truncated by
a read filter). -/
structure Row where
  key : Bytes
  cells : List (String × List (Bytes × List (Nat × Value)))
deriving DecidableEq

/-- Modelled from the spec: `LimitVersionsPerColumn(N)` (the demo's
`CellsColumnLimitFilter(1)`) restricts each column of the returned row to its
N most recent versions; `none` is the unfiltered read. -/
def applyLimit (filt : Option Nat) (versions : List (Nat × Value)) :
    List (Nat × Value) :=
  match filt with
  | none => versions
  | some n => versions.take n

/-- Modelled from the spec: `readRow(rowKey, filter?) -> Row | NotFound`; an
absent row is the explicit `none` result, never an error. -/
def readRow (s : CellStore) (r : Bytes) (filt : Option Nat) : Option Row :=
  if rowExists s r then
    some ⟨r, (rowFamilies s r).map (fun f =>
      (f, (rowColumns s r f).map (fun q => (q, applyLimit filt (getVersions s r f q)))))⟩
  else none

/-- Modelled from the spec: a read as a state operation; it returns the row
and leaves the store unchanged (filters only restrict what a single read
returns — they are read-time and non-destructive, unlike GC). -/
def readRowOp (s : CellStore) (r : Bytes) (filt : Option Nat) :
    Option Row × CellStore :=
  (readRow s r filt, s)

/-- The version list a returned row reports for one (family, qualifier). -/
def rowLookup (row : Row) (f : String) (q : Bytes) :
    Option (List (Nat × Value)) :=
  (row.cells.lookup f).bind (fun cols => cols.lookup q)

/-- The version list a `readRow` call reports for one (family, qualifier). -/
def readLookup (s : CellStore) (r : Bytes) (filt : Option Nat) (f : String)
    (q : Bytes) : Option (List (Nat × Value)) :=
  (readRow s r filt).bind (fun row => rowLookup row f q)

theorem lookup_map_pair {α β : Type _} [BEq α] [LawfulBEq α] (g : α → β) :
    ∀ (l : List α) (x : α), x ∈ l →
      (l.map (fun a => (a, g a))).lookup x = some (g x)
  | a :: t, x, hx => by
      simp only [List.map, List.lookup]
      by_cases h : x = a
      · subst h; simp
      · have hb : (x == a) = false := beq_eq_false_iff_ne.mpr h
        rw [hb]
        rcases List.mem_cons.mp hx with rfl | hxt
        · exact absurd rfl h
        · exact lookup_map_pair g t x hxt

theorem readLookup_eq (s : CellStore) (r : Bytes) (f : String) (q : Bytes)
    (filt : Option Nat) (h : 0 < (getVersions s r f q).length) :
    readLookup s r filt f q = some (applyLimit filt (getVersions s r f q)) := by
  obtain ⟨x, hx⟩ : ∃ x, x ∈ getVersions s r f q := by
    cases hv : getVersions s r f q with
    | nil => rw [hv] at h; exact absurd h (by simp)
    | cons a t => exact ⟨a, hv ▸ List.mem_cons_self a t⟩
  obtain ⟨c, hcs, ⟨h1, h2, h3⟩, -⟩ := mem_groupCells.mp (mem_getVersions.mp hx)
  have hex : rowExists s r = true :=
    List.any_eq_true.mpr ⟨c, hcs, by simp [h1]⟩
  have hf : f ∈ rowFamilies s r := by
    rw [rowFamilies, List.mem_dedup]
    exact List.mem_map.mpr ⟨c, List.mem_filter.mpr ⟨hcs, by simp [h1]⟩, h2⟩
  have hq : q ∈ rowColumns s r f := by
    rw [rowColumns, List.mem_dedup]
    exact List.mem_map.mpr ⟨c, List.mem_filter.mpr ⟨hcs, by simp [h1, h2]⟩, h3⟩
  rw [readLookup, readRow, if_pos hex, Option.some_bind, rowLookup]
  rw [lookup_map_pair (fun f =>
      (rowColumns s r f).map (fun q => (q, applyLimit filt (getVersions s r f q))))
    (rowFamilies s r) f hf]
  rw [Option.some_bind,
    lookup_map_pair (fun q => applyLimit filt (getVersions s r f q))
      (rowColumns s r f) q hq]

/-- C5: for every row and (family, qualifier) holding at least one version, a
read through LimitVersionsPerColumn(1) returns exactly one version for that
column — the most recent by timestamp — and leaves the stored cells unchanged
(the read operation returns the store as it was, and an unfiltered read of the
same row still returns all versions); in particular, on the store holding 3
versions of one qualifier the filtered read returns only the newest version
and the subsequent unfiltered read still returns all 3. -/
theorem limit_filter_read (s : CellStore) (r : Bytes) (f : String) (q : Bytes)
    (h : 0 < (getVersions s r f q).length) :
    (∃ v, readLookup s r (some 1) f q = some [v]
      ∧ v ∈ getVersions s r f q
      ∧ ∀ w ∈ getVersions s r f q, w.1 ≤ v.1)
    ∧ (readRowOp s r (some 1)).2 = s
    ∧ readLookup s r none f q = some (getVersions s r f q)
    ∧ readLookup gcDemoStore (encode "myrow") (some 1) "F" (encode "q")
        = some [(3, Value.bytes (encode "c"))]
    ∧ readLookup gcDemoStore (encode "myrow") none "F" (encode "q")
        = some [(3, Value.bytes (encode "c")), (2, Value.bytes (encode "b")),
            (1, Value.bytes (encode "a"))] := by
  refine ⟨?_, rfl, ?_, by decide, by decide⟩
  · cases hv : getVersions s r f q with
    | nil => rw [hv] at h; exact absurd h (by simp)
    | cons v t =>
        refine ⟨v, ?_, hv ▸ List.mem_cons_self v t, ?_⟩
        · rw [readLookup_eq s r f q (some 1) h, hv]
          rfl
        · intro w hw
          rcases List.mem_cons.mp hw with rfl | hwt
          · exact Nat.le_refl _
          · have hsorted : List.Sorted tsDesc (getVersions s r f q) :=
              sortTsDesc_sorted (groupCells s r f q)
            rw [hv] at hsorted
            exact List.rel_of_sorted_cons hsorted w hwt
  · rw [readLookup_eq s r f q none h]
    rfl

theorem limit_filter_read_witness :
    0 < (getVersions gcDemoStore (encode "myrow") "F" (encode "q")).length
    ∧ readLookup gcDemoStore (encode "myrow") none "F" (encode "q")
        = some (getVersions gcDemoStore (encode "myrow") "F" (encode "q")) :=
  ⟨by decide,
    (limit_filter_read gcDemoStore (encode "myrow") "F" (encode "q") (by decide)).2.2.1⟩

/-- C9: for every store, key and filter, the single-row read on an absent key
returns the explicit absent result `none` rather than raising (readRow is a
total function into an option): the read is `none` exactly when the row does
not exist, and on an existing row it is `some` row — so a caller can
distinguish the no-row outcome by inspecting the result, as the demo does by
printing only when the returned row is truthy. -/
theorem read_row_absent (s : CellStore) (key : Bytes) (filt : Option Nat) :
    (rowExists s key = false → readRow s key filt = none)
    ∧ (readRow s key filt = none → rowExists s key = false)
    ∧ (rowExists s key = true → ∃ row, readRow s key filt = some row) := by
  refine ⟨?_, ?_, ?_⟩
  · intro h
    rw [readRow, h]
    rfl
  · intro h
    by_contra hne
    have hex : rowExists s key = true := by
      cases hb : rowExists s key
      · exact absurd hb hne
      · rfl
    rw [readRow, if_pos hex] at h
    exact Option.noConfusion h
  · intro h
    exact ⟨_, by rw [readRow, if_pos h]⟩

theorem read_row_absent_witness :
    rowExists [] (encode "internet") = false
    ∧ readRow [] (encode "internet") (some 1) = none :=
  ⟨by decide, (read_row_absent [] (encode "internet") (some 1)).1 (by decide)⟩

/-- Modelled from the spec: the table-lifecycle error taxonomy used by the
demo flow (`TableExistsError`, `NotFoundError`). -/
inductive TableError where
  | tableExists
  | notFound
deriving DecidableEq

/-- Modelled from the spec: a table owns a mapping from column-family name to
its MaxVersions GC rule, and its cell storage. -/
structure Table where
  families : List (String × Nat)
  store : CellStore
deriving DecidableEq

/-- Modelled from the spec: the catalogue of created tables, by name. -/
abbrev Tables := List (String × Table)

/-- Modelled from the spec: `exists(name) -> bool`. -/
def tableExists (ts : Tables) (n : String) : Bool :=
  ts.any (fun t => decide (t.1 = n))

/-- Modelled from the spec: `exists` as a state operation; it returns the
boolean and leaves the catalogue unchanged (it never mutates state). -/
def tableExistsOp (ts : Tables) (n : String) : Bool × Tables :=
  (tableExists ts n, ts)

/-- Modelled from the spec: `create(name, familyConfigs)` fails with
`TableExistsError` if the table is already created, otherwise creates the
table with the given column-family configuration and empty storage. -/
def createTable (ts : Tables) (n : String) (fams : List (String × Nat)) :
    Except TableError Tables :=
  if tableExists ts n then .error .tableExists
  else .ok (ts ++ [(n, ⟨fams, []⟩)])

/-- Modelled from the spec: `delete(name)` removes the table and releases all
of its cell storage, failing with `NotFoundError` if the table is absent. -/
def deleteTable (ts : Tables) (n : String) : Except TableError Tables :=
  if tableExists ts n then .ok (ts.filter (fun t => !decide (t.1 = n)))
  else .error .notFound

/-- A one-table catalogue holding the demo's `words` table. -/
def demoTables : Tables := [("words", ⟨[("word_attributes", 2)], []⟩)]

/-- C3: for every table name, `create` fails with `TableExistsError` when a
table of that name already exists, and otherwise creates the table with the
given column-family configuration (afterwards the table exists); it never
silently skips creation on an existing table: a successful result implies the
table did not exist and the catalogue actually changed. -/
theorem create_table_spec (ts : Tables) (n : String)
    (fams : List (String × Nat)) :
    (tableExists ts n = true → createTable ts n fams = .error .tableExists)
    ∧ (tableExists ts n = false →
        createTable ts n fams = .ok (ts ++ [(n, ⟨fams, []⟩)])
        ∧ tableExists (ts ++ [(n, ⟨fams, []⟩)]) n = true)
    ∧ (∀ ts', createTable ts n fams = .ok ts' →
        tableExists ts n = false ∧ ts' ≠ ts) := by
  refine ⟨?_, ?_, ?_⟩
  · intro h
    rw [createTable, h]
    rfl
  · intro h
    rw [createTable, h]
    refine ⟨rfl, ?_⟩
    exact List.any_eq_true.mpr
      ⟨(n, ⟨fams, []⟩), List.mem_append_right _ (List.mem_singleton.mpr rfl), by simp⟩
  · intro ts' h
    cases hb : tableExists ts n
    · rw [createTable, hb] at h
      refine ⟨rfl, ?_⟩
      have : ts' = ts ++ [(n, ⟨fams, []⟩)] := by
        simpa using (Except.ok.injEq .. ▸ h).symm
      intro he
      rw [this] at he
      have := congrArg List.length he
      simp at this
    · rw [createTable, hb] at h
      exact Except.noConfusion h

theorem create_table_spec_witness :
    tableExists demoTables "words" = true
    ∧ createTable demoTables "words" [("word_attributes", 2)]
        = .error .tableExists :=
  ⟨by decide,
    (create_table_spec demoTables "words" [("word_attributes", 2)]).1 (by decide)⟩

/-- C7: for every catalogue and every existing table, deleting it succeeds,
the existence query then returns false, and a subsequent delete of the same
(now absent) table fails with `NotFoundError`; and the existence query never
mutates any state (as a state operation it returns the catalogue unchanged). -/
theorem delete_table_spec (ts : Tables) (n : String)
    (h : tableExists ts n = true) :
    ∃ ts', deleteTable ts n = .ok ts'
      ∧ tableExists ts' n = false
      ∧ deleteTable ts' n = .error .notFound
      ∧ ∀ (ts0 : Tables) (m : String), (tableExistsOp ts0 m).2 = ts0 := by
  have hgone : tableExists (ts.filter (fun t => !decide (t.1 = n))) n = false := by
    rw [tableExists]
    cases hb : (ts.filter (fun t => !decide (t.1 = n))).any (fun t => decide (t.1 = n))
    · rfl
    · obtain ⟨t, htm, htn⟩ := List.any_eq_true.mp hb
      have := (List.mem_filter.mp htm).2
      simp only [decide_eq_true_eq] at htn
      simp [htn] at this
  refine ⟨ts.filter (fun t => !decide (t.1 = n)), ?_, hgone, ?_, fun _ _ => rfl⟩
  · rw [deleteTable, h]
    rfl
  · rw [deleteTable, hgone]
    rfl

theorem delete_table_spec_witness :
    tableExists demoTables "words" = true
    ∧ ∃ ts', deleteTable demoTables "words" = .ok ts'
      ∧ tableExists ts' "words" = false
      ∧ deleteTable ts' "words" = .error .notFound
      ∧ ∀ (ts0 : Tables) (m : String), (tableExistsOp ts0 m).2 = ts0 :=
  ⟨by decide, delete_table_spec demoTables "words" (by decide)⟩

/-- Models Python `bytes.decode()` on the ASCII bytes the demo produces:
turns the byte list back into the string of its code points. -/
def renderBytes (b : Bytes) : String := String.mk (b.map Char.ofNat)

/-- The runtime value of the `value` variable of `_print_row` after the type
dispatch of src/main.py lines 74-77: an integer cell value stays an integer,
anything else is decoded to a string. -/
inductive PyVal where
  | int (n : Int)
  | str (s : String)
deriving DecidableEq

/-- The type dispatch of src/main.py lines 74-77 (`isinstance(cell.value,
int)`). -/
def dispatchValue : Value → PyVal
  | .int n => .int n
  | .bytes b => .str (renderBytes b)

/-- Models `cell.value.decode()` (src/main.py line 78): bytes decode to a
string; an integer has no `.decode()` attribute, so the call raises, modelled
as `none`. -/
def pyDecode : Value → Option String
  | .bytes b => some (renderBytes b)
  | .int _ => none

/-- The column loop of `_print_row` (src/main.py lines 72-78), embedded
faithfully: for each column it takes the newest cell (`[0]`; `none` models the
IndexError on an empty version list), computes `value` by the type dispatch of
lines 74-77, then appends `f'{column}:{cell.value.decode()}'` — the appended
string uses the raw `cell.value.decode()`, not `value`. -/
def collectValues : List (Bytes × List (Nat × Value)) → Option (List String)
  | [] => some []
  | (q, versions) :: rest =>
      match versions.head? with
      | none => none
      | some cell =>
          let value := dispatchValue cell.2
          match pyDecode cell.2 with
          | none => none
          | some d =>
              (collectValues rest).map (fun vs => (renderBytes q ++ ":" ++ d) :: vs)

/-- The column loop of `_print_row` with the dead type dispatch of lines 74-77
removed; `_print_row` behaves identically without it. -/
def collectValuesND : List (Bytes × List (Nat × Value)) → Option (List String)
  | [] => some []
  | (q, versions) :: rest =>
      match versions.head? with
      | none => none
      | some cell =>
          match pyDecode cell.2 with
          | none => none
          | some d =>
              (collectValuesND rest).map (fun vs => (renderBytes q ++ ":" ++ d) :: vs)

/-- `_print_row` (src/main.py lines 69-80): fetches the family's column map
(`row.cells[column_family_id]`; `none` models the KeyError when the family is
absent), collects the per-column strings, and renders the printed line. -/
def printRow (row : Row) (cf : String) : Option String :=
  match row.cells.lookup cf with
  | none => none
  | some cols =>
      (collectValues cols).map (fun vs =>
        "Row: " ++ renderBytes row.key ++ " - " ++ String.intercalate " - " vs)

/-- `_print_row` with the dead type dispatch removed. -/
def printRowND (row : Row) (cf : String) : Option String :=
  match row.cells.lookup cf with
  | none => none
  | some cols =>
      (collectValuesND cols).map (fun vs =>
        "Row: " ++ renderBytes row.key ++ " - " ++ String.intercalate " - " vs)

theorem collectValues_eq_ND : ∀ cols, collectValues cols = collectValuesND cols
  | [] => rfl
  | (q, versions) :: rest => by
      rw [collectValues, collectValuesND]
      cases hv : versions.head? with
      | none => rfl
      | some cell =>
          dsimp only
          cases hd : pyDecode cell.2 with
          | none => rfl
          | some d => rw [collectValues_eq_ND rest]

theorem collectValues_none_of_int :
    ∀ (cols : List (Bytes × List (Nat × Value))) (q : Bytes)
      (versions : List (Nat × Value)) (cell : Nat × Value) (n : Int),
      (q, versions) ∈ cols → versions.head? = some cell → cell.2 = .int n →
      collectValues cols = none
  | [], q, versions, cell, n => by
      intro hmem _ _
      exact absurd hmem (List.not_mem_nil _)
  | (q', versions') :: rest, q, versions, cell, n => by
      intro hmem hcell hint
      obtain ⟨cts, cval⟩ := cell
      have hv : cval = Value.int n := hint
      subst hv
      rcases List.mem_cons.mp hmem with heq | hrest
      · injection heq with h1 h2
        subst h1; subst h2
        rw [collectValues, hcell]
        rfl
      · rw [collectValues]
        cases hv2 : versions'.head? with
        | none => rfl
        | some c =>
            dsimp only
            cases hd : pyDecode c.2 with
            | none => rfl
            | some d =>
                rw [collectValues_none_of_int rest q versions (cts, Value.int n) n
                  hrest hcell rfl]
                rfl

/-- C10: in the row-printing helper `_print_row`, the value computed by the
integer/byte-string type dispatch is never used in the output — the helper
behaves identically with the dispatch removed, because every printed column
unconditionally calls `.decode()` on the raw cell value — and therefore the
helper raises (modelled as returning `none`) for any row containing an
integer-valued cell, despite appearing to handle that case. -/
theorem print_row_dispatch_dead (row : Row) (cf : String)
    (cols : List (Bytes × List (Nat × Value))) (q : Bytes)
    (versions : List (Nat × Value)) (cell : Nat × Value) (n : Int)
    (hcols : row.cells.lookup cf = some cols)
    (hq : (q, versions) ∈ cols)
    (hcell : versions.head? = some cell)
    (hint : cell.2 = .int n) :
    (∀ (row' : Row) (cf' : String), printRow row' cf' = printRowND row' cf')
    ∧ printRow row cf = none := by
  constructor
  · intro row' cf'
    rw [printRow, printRowND]
    cases row'.cells.lookup cf' with
    | none => rfl
    | some cols' =>
        dsimp only
        rw [collectValues_eq_ND cols']
  · rw [printRow, hcols]
    dsimp only
    rw [collectValues_none_of_int cols q versions cell n hq hcell hint]
    rfl

/-- A row holding one integer-valued cell, for the C10 witness. -/
def intRow : Row := ⟨encode "r", [("F", [(encode "q", [(1, Value.int 7)])])]⟩

theorem print_row_dispatch_dead_witness :
    intRow.cells.lookup "F" = some [(encode "q", [(1, Value.int 7)])]
    ∧ (encode "q", [(1, Value.int 7)]) ∈ [(encode "q", [(1, Value.int 7)])]
    ∧ ([(1, Value.int 7)] : List (Nat × Value)).head? = some (1, Value.int 7)
    ∧ ((1, Value.int 7) : Nat × Value).2 = Value.int 7
    ∧ printRow intRow "F" = none :=
  ⟨by decide, by decide, by decide, by decide,
    (print_row_dispatch_dead intRow "F" [(encode "q", [(1, Value.int 7)])]
      (encode "q") [(1, Value.int 7)] (1, Value.int 7) 7
      (by decide) (by decide) (by decide) (by decide)).2⟩

end Bigtable
